import Mathlib

/-!
Verification of the TBRS* interference-model simulator
(`tbrs_compatible_with_bert_model.c`) against its specification.

The C program is embedded shallowly:

* machine floats are modelled as rationals;
* every random draw the program makes (the `rand()` stream and the
  Box-Muller normal deviates) is an explicit oracle argument, so the
  theorems quantify over all random streams;
* the 1-indexed C arrays become total functions from indices to values;
  where out-of-bounds behaviour matters the index type is `ℤ`, so that
  accesses outside the array can be stated;
* C loops become `List.foldl` over the loop ranges in iteration order,
  or, for loops that write each cell at most once, the equivalent
  pointwise function.
-/

set_option maxRecDepth 40000

namespace TBRS

/-! Constants fixed by `#define` in the source (lines 30-41). -/

def nbUnitBlocks : ℕ := 9

def sizeOfPositionBlocks : ℕ := 6

def maxPosition : ℕ := 100

def maxMemoranda : ℕ := 10

def maxDistractors : ℕ := 90

def maxItem : ℕ := maxMemoranda + maxDistractors

def nbItemUnits : ℕ := 100

def nbPositionUnits : ℕ := nbUnitBlocks * sizeOfPositionBlocks

/-! Default parameter values (lines 54-77) used by concrete instances. -/

def param_P : ℚ := 3 / 10

def param_L : ℚ := 1 / 9

def param_theta : ℚ := 1 / 20

def param_sigma : ℚ := 1 / 50

/-- C float-to-int conversion truncates toward zero. -/
def ctrunc (q : ℚ) : ℤ := if 0 ≤ q then ⌊q⌋ else -⌊-q⌋

/-- The source defines `int max(int val1, int val2)` (lines 176-181).
Calling it with float arguments implicitly truncates each of them to `int`
first, and the result is an `int`. -/
def cmaxInt (a b : ℤ) : ℤ := if a > b then a else b

/-- The factor multiplying the retrieval noise draw:
`max(param_sigma,.0001)` at line 367 calls the integer `max`, so both float
arguments are truncated toward zero before the comparison. -/
def noiseMult (sigma : ℚ) : ℚ := (cmaxInt (ctrunc sigma) (ctrunc (1 / 10000)) : ℚ)

/-- Activation of `item` at position `pos` (retrieve, lines 358-367): the sum
of `positionVectors[pos][i] * itemPositionMatrix[item][i]` over the nonzero
position units, plus `randomNormal(0,1) * max(param_sigma,.0001)`; `z` is the
oracle value of the `randomNormal(0,1)` draw of this iteration. -/
def activationOf (pv M : ℕ → ℕ → ℚ) (pos item : ℕ) (z sigma : ℚ) : ℚ :=
  (List.range nbPositionUnits).foldl
    (fun s t => if pv pos (t + 1) ≠ 0 then s + pv pos (t + 1) * M item (t + 1) else s) 0
    + z * noiseMult sigma

/-- Linear scan keeping the running maximum and its index; the comparison is
strict, so ties keep the first-encountered index (retrieve, lines 373-376). -/
def maxSel (g : ℕ → ℚ) : List ℕ → ℚ × ℕ → ℚ × ℕ
  | [], st => st
  | x :: xs, st => maxSel g xs (if g x > st.1 then (g x, x) else st)

/-- The live items: memoranda `1..maxMemoranda` followed by the `d`
distractors created so far (loop bound `maxMemoranda+distractorNumber`). -/
def itemList (d : ℕ) : List ℕ := (List.range (maxMemoranda + d)).map (fun t => t + 1)

/-- `activationMax` and `bestWMItem` as computed by retrieve (lines 355-377);
`noise item` is the oracle value of the normal draw made in that item's loop
iteration.  The accumulator starts from `(-99999, 0)`; in C `bestWMItem` is
uninitialized until the first strict improvement, `0` stands for that junk. -/
def retrieveMax (pv M : ℕ → ℕ → ℚ) (d pos : ℕ) (noise : ℕ → ℚ) (sigma : ℚ) : ℚ × ℕ :=
  maxSel (fun item => activationOf pv M pos item (noise item) sigma) (itemList d) (-99999, 0)

/-- Squared RMSE.  The source's `rmse` (lines 292-301) computes
`sqrt(Σ diff^2 / size)`; square roots leave `ℚ` and the program only ever
compares RMSE values against each other and against the initial bound 99999,
so the embedding carries the radicand `Σ diff^2 / size` and squares the
initial bound: `sqrt` is strictly monotone on nonnegatives, hence every
comparison has the same outcome.  Note there is no sentinel masking: a cell
holding -1 participates numerically, exactly as in the source. -/
def rmseSq (v1 v2 : ℕ → ℚ) (size : ℕ) : ℚ :=
  ((List.range size).foldl
    (fun s t => s + (v1 (t + 1) - v2 (t + 1)) * (v1 (t + 1) - v2 (t + 1))) 0) / size

/-- Linear scan keeping the running minimum and its index; strict comparison,
so the first-encountered minimum wins (retrieve, lines 413-421). -/
def selMin (f : ℕ → ℚ) : List ℕ → ℚ × ℕ → ℚ × ℕ
  | [], st => st
  | x :: xs, st => selMin f xs (if f x < st.1 then (f x, x) else st)

/-- The LTM item whose vector is closest (minimal RMSE) to the WM vector of
`bw` (retrieve, lines 411-421); `selMin` starts from `(99999^2, 0)`, the
squared image of the source's `minRmse=99999` with uninitialized result. -/
def ltmMatch (WM LTM : ℕ → ℕ → ℚ) (bw d : ℕ) : ℕ :=
  (selMin (fun item => rmseSq (WM bw) (LTM item) nbItemUnits) (itemList d) (99999 ^ 2, 0)).2

/-- Return value of retrieve (lines 406-428): the sentinel 0 when
`activationMax < param_theta`, otherwise the index of the LTM item closest
to the best WM item. -/
def retrieve (pv M WM LTM : ℕ → ℕ → ℚ) (d pos : ℕ) (noise : ℕ → ℚ)
    (sigma theta : ℚ) : ℕ :=
  if (retrieveMax pv M d pos noise sigma).1 < theta then 0
  else ltmMatch WM LTM (retrieveMax pv M d pos noise sigma).2 d

/-- The character code recall stores for a position (lines 705-724):
`bestLTM + 64` is the letter (`'A'` is 65), 42 is the wildcard `'*'`, and 46
is the placeholder dot `'.'` emitted when activationMax is not above theta. -/
def recallSymbolCode (am theta : ℚ) (bestLTM : ℕ) : ℕ :=
  if am > theta then (if 1 ≤ bestLTM ∧ bestLTM ≤ 26 then bestLTM + 64 else 42) else 46

/-- decay (lines 306-315): multiply every nonzero association of every
non-excluded item by `factor` (`excludedItem = -1` decays all items). -/
def decayFn (M : ℕ → ℕ → ℚ) (factor : ℚ) (excludedItem : ℤ) : ℕ → ℕ → ℚ :=
  fun i j =>
    if 1 ≤ i ∧ i ≤ maxItem ∧ 1 ≤ j ∧ j ≤ nbPositionUnits
        ∧ (excludedItem = -1 ∨ (i : ℤ) ≠ excludedItem) ∧ M i j ≠ 0
    then M i j * factor else M i j

/-- Response suppression (recall, lines 713-715): for every position unit `j`
such that `itemVectorsInWM[bestLTMItem][j]` is nonzero, subtract
`param_L * activationMax` from `itemPositionMatrix[bestLTMItem][j]`.  Only
the row of `bestLTMItem` (the retrieved item) is written. -/
def responseSuppression (M WM : ℕ → ℕ → ℚ) (bestLTM : ℕ) (am L : ℚ) : ℕ → ℕ → ℚ :=
  fun i j =>
    if i = bestLTM ∧ 1 ≤ j ∧ j ≤ nbPositionUnits ∧ WM bestLTM j ≠ 0
    then M i j - L * am else M i j

/-- One position of recall (lines 690-726): retrieve, decay all associations
by `exp(-param_D*retrievalDuration)` (the transcendental factor enters as the
oracle `df`), then apply response suppression when activationMax is above
theta; the second component is the stored symbol code. -/
def recallStep (pv M WM LTM : ℕ → ℕ → ℚ) (d pos : ℕ) (noise : ℕ → ℚ)
    (sigma theta L df : ℚ) : (ℕ → ℕ → ℚ) × ℕ :=
  (if (retrieveMax pv M d pos noise sigma).1 > theta then
     responseSuppression (decayFn M df (-1)) WM
       (retrieve pv M WM LTM d pos noise sigma theta)
       (retrieveMax pv M d pos noise sigma).1 L
   else decayFn M df (-1),
   recallSymbolCode (retrieveMax pv M d pos noise sigma).1 theta
     (retrieve pv M WM LTM d pos noise sigma theta))

/-- Clamp to [0,1] (createSimilarRandomPattern, lines 239-242). -/
def clamp01 (v : ℚ) : ℚ := if v < 0 then 0 else if v > 1 then 1 else v

/-- createSimilarRandomPattern (lines 227-246), written pointwise (each index
is written exactly once): indices `lo..hi` inclusive get a fresh uniform draw
where the reference holds the sentinel -1, and otherwise the normal draw
around the reference value clamped to [0,1]; `udraw`/`ndraw` are the oracles
for those two draws and `std` is the standard deviation the normal draw was
made with (the sampled value itself is the oracle's). -/
def createSimilarRandomPattern (pattern refPattern : ℤ → ℚ) (std : ℚ)
    (udraw ndraw : ℤ → ℚ) (lo hi : ℤ) : ℤ → ℚ :=
  fun j => if lo ≤ j ∧ j ≤ hi then
      (if refPattern j = -1 then udraw j else clamp01 (ndraw j)) else pattern j

/-- Iteration count of the loop `for(c=1;c<=(1-p)*patternSize;c++)`
(line 273): an integer counter compared against a real bound runs
`⌊(1-p)*patternSize⌋` times when that floor is positive, else not at all. -/
def corpK2 (S : ℤ) (p : ℚ) : ℤ := max 0 ⌊(1 - p) * (S : ℚ)⌋

/-- Value of the cursor `i` after the two sentinel-filling loops of
createOverlapingRandomPattern.  The guard `refPattern[i]==-1` of the first
loop is commented out in the source (line 268), so that loop always runs `i`
up to `patternSize+1` (which is also `firstUsedUnit`), and the second loop
advances it by `corpK2` more. -/
def corpI2 (S : ℤ) (p : ℚ) : ℤ := S + 1 + corpK2 S p

/-- First loop of createOverlapingRandomPattern (lines 267-271): every index
`1..patternSize` is set to the sentinel -1. -/
def corpFill1 (pattern : ℤ → ℚ) (S : ℤ) : ℤ → ℚ :=
  fun j => if 1 ≤ j ∧ j ≤ S then -1 else pattern j

/-- Second loop (lines 273-274): `corpK2` further sentinel writes starting at
index `patternSize+1`. -/
def corpFill2 (pattern : ℤ → ℚ) (S : ℤ) (p : ℚ) : ℤ → ℚ :=
  fun j => if S + 1 ≤ j ∧ j ≤ S + corpK2 S p then -1 else pattern j

/-- In-place swap of two array cells (lines 280-282). -/
def swapF (v : ℤ → ℚ) (a b : ℤ) : ℤ → ℚ :=
  fun j => if j = a then v b else if j = b then v a else v j

/-- `alea = rand()%(patternSize)+firstUsedUnit` (line 279) with
`firstUsedUnit = patternSize+1`; `r` is the oracle `rand()` value. -/
def aleaIdx (S : ℤ) (r : ℕ) : ℤ := ((r % S.toNat : ℕ) : ℤ) + S + 1

/-- The values taken by the shuffle counter `c` (line 277), in loop order:
`firstUsedUnit+patternSize` down to `firstUsedUnit+1`. -/
def corpCs (S : ℤ) : List ℤ := (List.range S.toNat).map (fun (t : ℕ) => 2 * S + 1 - (t : ℤ))

/-- The shuffle loop of createOverlapingRandomPattern (lines 277-283). -/
def corpShuffle (S : ℤ) (alea : ℤ → ℕ) (v : ℤ → ℚ) : ℤ → ℚ :=
  (corpCs S).foldl (fun w c => swapF w (aleaIdx S (alea c)) c) v

/-- Final loop (lines 284-285): sentinel fill from `i+patternSize+1` up to
`patternSize` (an empty range in every reachable call). -/
def corpFill5 (S i2 : ℤ) (v : ℤ → ℚ) : ℤ → ℚ :=
  fun j => if i2 + S + 1 ≤ j ∧ j ≤ S then -1 else v j

/-- createOverlapingRandomPattern (lines 252-286) for `patternSize ≥ 1` (all
call sites pass `nbItemUnits = 100`): sentinel fill of `1..patternSize`, the
second sentinel loop, the noisy copy over `i..i+patternSize/4`, the shuffle,
and the final (empty) fill. -/
def createOverlapingRandomPattern (pattern refPattern : ℤ → ℚ) (S : ℤ) (p std : ℚ)
    (udraw ndraw : ℤ → ℚ) (alea : ℤ → ℕ) : ℤ → ℚ :=
  corpFill5 S (corpI2 S p)
    (corpShuffle S alea
      (createSimilarRandomPattern (corpFill2 (corpFill1 pattern S) S p) refPattern std
        udraw ndraw (corpI2 S p) (corpI2 S p + S / 4)))

/-- Indices `lo..hi` inclusive, as a list. -/
def rangeIccZ (lo hi : ℤ) : List ℤ :=
  (List.range (hi + 1 - lo).toNat).map (fun (t : ℕ) => lo + (t : ℤ))

/-- Every index of the `pattern` array written by
createOverlapingRandomPattern, sub-loop by sub-loop: the first sentinel fill,
the second sentinel fill, the noisy-copy span, the two cells swapped by each
shuffle iteration (listed as all `alea` cells then all `c` cells), and the
final fill. -/
def corpWriteIndices (S : ℤ) (p : ℚ) (alea : ℤ → ℕ) : List ℤ :=
  rangeIccZ 1 S ++ rangeIccZ (S + 1) (S + corpK2 S p)
    ++ rangeIccZ (corpI2 S p) (corpI2 S p + S / 4)
    ++ (corpCs S).map (fun c => aleaIdx S (alea c))
    ++ corpCs S
    ++ rangeIccZ (corpI2 S p + S + 1) S

def distractorOverflowMsg : String :=
  "number of distractors is higher than what is allowed in the program. Increase maxDistractors constant"

/-- Distractor bookkeeping of the main loop (lines 1045-1048): the guard
fires only when `distractorNumber` already exceeds `maxDistractors`;
otherwise, with `param_sameDist = 0`, the counter is incremented and the
distractor is then encoded at item index `maxMemoranda + distractorNumber`. -/
def distractorGuard (sameDist dn : ℤ) : Except String ℤ :=
  if dn > (maxDistractors : ℤ) then Except.error distractorOverflowMsg
  else Except.ok (if sameDist = 0 then dn + 1 else dn)

/-- `distractorNumber` after processing `k` distractor symbols of a fresh
trial (`distractorNumber` starts at 0, line 1009), distractors distinct. -/
def runDistractorSymbols : ℕ → Except String ℤ
  | 0 => Except.ok 0
  | k + 1 =>
    match runDistractorSymbols k with
    | Except.ok dn => distractorGuard 0 dn
    | Except.error e => Except.error e

/-- The program state settable from the command line: exactly the globals
assigned by the argument-parsing loop of main (lines 920-945).  `PRESET` is
not among them: no command-line option assigns it. -/
structure Config where
  verbose : Bool
  quiet : Bool
  nbSimulations : ℤ
  nbmemo : ℤ
  memoDistr : ℚ
  nbop : ℤ
  paramR : ℚ
  paramP : ℚ
  paramS : ℚ
  paramD : ℚ
  paramTheta : ℚ
  paramSigma : ℚ
  paramTr : ℚ
  paramTa : ℚ
  freeTime : ℚ
  ftiod : ℤ
  determ : ℤ
  sameDist : ℤ
  idn : ℚ
  iio : ℚ
  ido : ℚ

/-- Global `int PRESET=1;` (line 91); nothing in the program ever writes it. -/
def PRESET : Bool := true

/-- Value of `itemVectorsInLTM[i][j]` for a memorandum `i ∈ 1..maxMemoranda`
and unit `j ∈ 1..nbItemUnits` after generateItemRepresentations
(lines 784-800): the fresh uniform pattern when `!PRESET`, otherwise the
preloaded embeddings row; `cfg` is the command-line configuration, on which
the branch does not depend. -/
def generateMemorandumUnit (cfg : Config) (udraw emb : ℕ → ℕ → ℚ) (i j : ℕ) : ℚ :=
  if PRESET = false then udraw i j else emb (i - 1) (j - 1)

/-- Point update of a 1-indexed int array cell. -/
def upd (v : ℕ → ℤ) (i : ℕ) (x : ℤ) : ℕ → ℤ := fun j => if j = i then x else v j

/-- A loop writing 0 to indices `lo, lo+1, ..., lo+len-1`. -/
def zeroRange (v : ℕ → ℤ) (lo len : ℕ) : ℕ → ℤ :=
  (List.range len).foldl (fun w t => upd w (lo + t) 0) v

/-- A loop copying `src` into indices `lo, ..., lo+len-1`. -/
def copyRange (src v : ℕ → ℤ) (lo len : ℕ) : ℕ → ℤ :=
  (List.range len).foldl (fun w t => upd w (lo + t) (src (lo + t))) v

/-- Block `b` (0-based) of position 1 (generatePositionRepresentations,
lines 740-743): one random unit of the six-unit block is set to 1, consuming
one `rand()` draw; the counter is the second component. -/
def initBlock (rand : ℕ → ℕ) (vk : (ℕ → ℤ) × ℕ) (b : ℕ) : (ℕ → ℤ) × ℕ :=
  (upd vk.1 (b * 6 + (1 + rand vk.2 % 6)) 1, vk.2 + 1)

/-- The row of position 1 (lines 738-743): zero all 54 units, then set one
unit per block; paired with the number of `rand()` draws consumed. -/
def row1 (rand : ℕ → ℕ) (init : ℕ → ℤ) : (ℕ → ℤ) × ℕ :=
  (List.range 9).foldl (initBlock rand) (zeroRange init 1 54, 0)

/-- Block `b` of a later position (lines 746-760): one draw decides, by
`rand()%100 > param_P*100`, whether the block is resampled (all six units
zeroed, then one fresh random unit set, consuming a second draw) or copied
verbatim from the previous position's row. -/
def nextBlock (P : ℚ) (rand : ℕ → ℕ) (prev : ℕ → ℤ) (vk : (ℕ → ℤ) × ℕ) (b : ℕ) :
    (ℕ → ℤ) × ℕ :=
  if ((rand vk.2 % 100 : ℕ) : ℚ) > P * 100 then
    (upd (zeroRange vk.1 (b * 6 + 1) 6) (b * 6 + (1 + rand (vk.2 + 1) % 6)) 1, vk.2 + 2)
  else (copyRange prev vk.1 (b * 6 + 1) 6, vk.2 + 1)

/-- A full later row: fold `nextBlock` over the 9 blocks.  `init` is the
uninitialized memory the row starts from; every unit `1..54` is overwritten
by one of the branches. -/
def nextRow (P : ℚ) (rand : ℕ → ℕ) (prevR : (ℕ → ℤ) × ℕ) (init : ℕ → ℤ) :
    (ℕ → ℤ) × ℕ :=
  (List.range 9).foldl (nextBlock P rand prevR.1) (init, prevR.2)

/-- Row of position `p ≥ 1` paired with the `rand()` counter reached after
generating it; `initRow p` is the uninitialized stack content of row `p`. -/
def rowState (P : ℚ) (rand : ℕ → ℕ) (initRow : ℕ → ℕ → ℤ) : ℕ → (ℕ → ℤ) × ℕ
  | 0 => (initRow 0, 0)
  | 1 => row1 rand (initRow 1)
  | p + 2 => nextRow P rand (rowState P rand initRow (p + 1)) (initRow (p + 2))

/-- `positionVectors[p]` as generated by generatePositionRepresentations. -/
def positionVector (P : ℚ) (rand : ℕ → ℕ) (initRow : ℕ → ℕ → ℤ) (p : ℕ) : ℕ → ℤ :=
  (rowState P rand initRow p).1

/-- Exactly one of the six units of block `b` holds 1 and the rest hold 0. -/
def blockOne (v : ℕ → ℤ) (b : ℕ) : Prop :=
  ∃ u, 1 ≤ u ∧ u ≤ 6 ∧ ∀ i, 1 ≤ i → i ≤ 6 → v (b * 6 + i) = if i = u then 1 else 0

/-- Reencoding duration computed by encode during refreshing (lines 483-488):
`numer` stands for the positive constant `-log(1-var_tauR)` (equal to
`param_R*param_Tr`), `r` for the sampled processing rate, floored at 0.1
(lines 448-450), and the quotient is clamped to the remaining time. -/
def refreshDur (numer r t : ℚ) : ℚ :=
  if numer / (if r < 1 / 10 then 1 / 10 else r) > t then t
  else numer / (if r < 1 / 10 then 1 / 10 else r)

/-- encode's refresh branch (lines 483-490): compute the duration only when
the caller passed the marker -1, else reuse the caller's value verbatim. -/
def encodeRefreshDuration (numer r t dur : ℚ) : ℚ :=
  if dur = -1 then refreshDur numer r t else dur

/-- The inner refresh window (refresh, lines 586-602): iterate the
attentional focus, threading `reencodingDuration` (initialized to -1 at line
584); returns the list of durations used at each slot together with the
final `reencodingDuration`.  `rates m` is the rate draw of the m-th call. -/
def windowDurations (numer t : ℚ) (rates : ℕ → ℚ) (afsi : ℕ) : List ℚ × ℚ :=
  (List.range afsi).foldl
    (fun acc m =>
      (acc.1 ++ [encodeRefreshDuration numer (rates m) t acc.2],
        encodeRefreshDuration numer (rates m) t acc.2))
    ([], -1)

/-- One pass of refresh's outer while loop (lines 581-607): run the window,
subtract the shared reencoding duration from the remaining time, floor at 0. -/
def refreshOuterPass (numer : ℚ) (rates : ℕ → ℚ) (afsi : ℕ) (t : ℚ) : ℚ :=
  if t - (windowDurations numer t rates afsi).2 < 0 then 0
  else t - (windowDurations numer t rates afsi).2

/-- `timeAvailable` after `k` candidate passes of `while (timeAvailable > 0)`:
a pass only runs while the guard holds, so the value is frozen as soon as it
is not strictly positive.  `rates k m` is the rate oracle of pass `k`. -/
def refreshIter (numer : ℚ) (rates : ℕ → ℕ → ℚ) (afsi : ℕ) : ℕ → ℚ → ℚ
  | 0, t => t
  | k + 1, t =>
    if refreshIter numer rates afsi k t > 0 then
      refreshOuterPass numer (rates k) afsi (refreshIter numer rates afsi k t)
    else refreshIter numer rates afsi k t

/-! Concrete instances used by counterexamples and witnesses. -/

/-- Position vectors with only unit 1 active, at every position. -/
def pvEx : ℕ → ℕ → ℚ := fun _ j => if j = 1 then 1 else 0

/-- Association matrix: item 1 strongly bound to unit 1, item 2 weakly. -/
def mEx : ℕ → ℕ → ℚ := fun i j =>
  if i = 1 ∧ j = 1 then 1 else if i = 2 ∧ j = 1 then 1 / 2 else 0

/-- Working-memory vectors: every unit of every item holds 1/2. -/
def wmEx : ℕ → ℕ → ℚ := fun _ _ => 1 / 2

/-- LTM vectors: item 2 matches `wmEx` exactly, all other items are 0. -/
def ltmEx : ℕ → ℕ → ℚ := fun i _ => if i = 2 then 1 / 2 else 0

/-! Generic lemmas about the loop embeddings. -/

/-- Folding an accumulate-only body equals adding the mapped sum. -/
lemma foldl_add_fn (g : ℕ → ℚ) :
    ∀ (L : List ℕ) (s : ℚ), L.foldl (fun a t => a + g t) s = s + (L.map g).sum := by
  intro L
  induction L with
  | nil => intro s; simp
  | cons a L ih => intro s; simp [List.foldl_cons, ih, add_assoc]

/-- Sum over an initial range of a function vanishing away from 0. -/
lemma sum_map_single (g : ℕ → ℚ) (hg : ∀ t, t ≠ 0 → g t = 0) :
    ∀ n, 1 ≤ n → ((List.range n).map g).sum = g 0 := by
  intro n hn
  induction n with
  | zero => omega
  | succ m ih =>
    rcases Nat.eq_zero_or_pos m with h0 | hpos
    · subst h0; simp [List.range_succ]
    · rw [List.range_succ, List.map_append, List.sum_append, ih hpos]
      simp [hg m (by omega)]

/-- Sum over an initial range of a constant function. -/
lemma sum_map_const (c : ℚ) : ∀ n : ℕ, ((List.range n).map (fun _ => c)).sum = n * c := by
  intro n
  induction n with
  | zero => simp
  | succ m ih =>
    rw [List.range_succ, List.map_append, List.sum_append, ih]
    simp
    ring

/-- The activation loop body guarded by the nonzero test, rewritten as an
unconditional accumulation. -/
lemma actFold_fun (pv M : ℕ → ℕ → ℚ) (pos item : ℕ) :
    (fun (s : ℚ) (t : ℕ) =>
        if pv pos (t + 1) ≠ 0 then s + pv pos (t + 1) * M item (t + 1) else s)
      = fun s t =>
          s + (if pv pos (t + 1) ≠ 0 then pv pos (t + 1) * M item (t + 1) else 0) := by
  funext s t
  by_cases h : pv pos (t + 1) ≠ 0
  · rw [if_pos h, if_pos h]
  · rw [if_neg h, if_neg h, add_zero]

/-- Activation as a mapped sum plus the noise term. -/
lemma activationOf_eq_sum (pv M : ℕ → ℕ → ℚ) (pos item : ℕ) (z sigma : ℚ) :
    activationOf pv M pos item z sigma
      = ((List.range nbPositionUnits).map
          (fun t => if pv pos (t + 1) ≠ 0 then pv pos (t + 1) * M item (t + 1) else 0)).sum
        + z * noiseMult sigma := by
  rw [activationOf, actFold_fun, foldl_add_fn, zero_add]

/-- Activation in the all-zero state with a zero noise draw is zero. -/
lemma activationOf_zero (pos item : ℕ) (sigma : ℚ) :
    activationOf (fun _ _ => 0) (fun _ _ => 0) pos item 0 sigma = 0 := by
  rw [activationOf_eq_sum, zero_mul (noiseMult sigma), add_zero]
  apply List.sum_eq_zero
  intro x hx
  rcases List.mem_map.mp hx with ⟨t, _, rfl⟩
  simp

/-- The running maximum never exceeds a bound dominating the seed and all
values. -/
lemma maxSel_fst_le (g : ℕ → ℚ) (B : ℚ) :
    ∀ (L : List ℕ) (st : ℚ × ℕ), st.1 ≤ B → (∀ x ∈ L, g x ≤ B) →
      (maxSel g L st).1 ≤ B := by
  intro L
  induction L with
  | nil => intro st h _; exact h
  | cons a L ih =>
    intro st h hall
    rw [maxSel]
    by_cases ha : g a > st.1
    · rw [if_pos ha]
      exact ih _ (hall a (List.mem_cons_self a L)) fun x hx => hall x (List.mem_cons_of_mem a hx)
    · rw [if_neg ha]
      exact ih _ h fun x hx => hall x (List.mem_cons_of_mem a hx)

/-- The running maximum is monotone in the seed. -/
lemma maxSel_fst_ge_init (g : ℕ → ℚ) :
    ∀ (L : List ℕ) (st : ℚ × ℕ), st.1 ≤ (maxSel g L st).1 := by
  intro L
  induction L with
  | nil => intro st; exact le_refl _
  | cons a L ih =>
    intro st
    rw [maxSel]
    by_cases ha : g a > st.1
    · rw [if_pos ha]
      exact le_trans (le_of_lt ha) (ih _)
    · rw [if_neg ha]
      exact ih _

/-- Every scanned value is dominated by the resulting maximum. -/
lemma le_maxSel_fst (g : ℕ → ℚ) :
    ∀ (L : List ℕ) (st : ℚ × ℕ) (x : ℕ), x ∈ L → g x ≤ (maxSel g L st).1 := by
  intro L
  induction L with
  | nil => intro st x hx; cases hx
  | cons a L ih =>
    intro st x hx
    rw [maxSel]
    rcases List.mem_cons.mp hx with rfl | hx
    · by_cases ha : g x > st.1
      · rw [if_pos ha]
        exact maxSel_fst_ge_init g L (g x, x)
      · rw [if_neg ha]
        exact le_trans (not_lt.mp ha) (maxSel_fst_ge_init g L st)
    · by_cases ha : g a > st.1
      · rw [if_pos ha]; exact ih _ x hx
      · rw [if_neg ha]; exact ih _ x hx

/-- The running minimum never increases. -/
lemma selMin_fst_le_init (f : ℕ → ℚ) :
    ∀ (L : List ℕ) (st : ℚ × ℕ), (selMin f L st).1 ≤ st.1 := by
  intro L
  induction L with
  | nil => intro st; exact le_refl _
  | cons a L ih =>
    intro st
    rw [selMin]
    by_cases ha : f a < st.1
    · rw [if_pos ha]
      exact le_trans (ih _) (le_of_lt ha)
    · rw [if_neg ha]
      exact ih _

/-- The resulting minimum is dominated by every scanned value. -/
lemma selMin_fst_le (f : ℕ → ℚ) :
    ∀ (L : List ℕ) (st : ℚ × ℕ) (x : ℕ), x ∈ L → (selMin f L st).1 ≤ f x := by
  intro L
  induction L with
  | nil => intro st x hx; cases hx
  | cons a L ih =>
    intro st x hx
    rw [selMin]
    rcases List.mem_cons.mp hx with rfl | hx
    · by_cases ha : f x < st.1
      · rw [if_pos ha]
        exact selMin_fst_le_init f L (f x, x)
      · rw [if_neg ha]
        exact le_trans (selMin_fst_le_init f L st) (not_lt.mp ha)
    · by_cases ha : f a < st.1
      · rw [if_pos ha]; exact ih _ x hx
      · rw [if_neg ha]; exact ih _ x hx

/-- Characterization of the strict-minimum linear scan over a strictly
ascending list: either nothing beat the seed and the state is unchanged, or
the result attains the minimum and every element before the winning index is
strictly worse (the first-encountered minimum wins). -/
lemma selMin_cases (f : ℕ → ℚ) :
    ∀ (L : List ℕ) (st : ℚ × ℕ), L.Pairwise (· < ·) →
      selMin f L st = st ∨
        ((selMin f L st).1 < st.1 ∧ (selMin f L st).2 ∈ L ∧
          f (selMin f L st).2 = (selMin f L st).1 ∧
          ∀ x ∈ L, x < (selMin f L st).2 → (selMin f L st).1 < f x) := by
  intro L
  induction L with
  | nil => intro st _; exact Or.inl rfl
  | cons a L ih =>
    intro st hpw
    obtain ⟨ha, hpw2⟩ := List.pairwise_cons.mp hpw
    rw [selMin]
    by_cases hlt : f a < st.1
    · rw [if_pos hlt]
      rcases ih (f a, a) hpw2 with heq | ⟨h1, h2, h3, h4⟩
      · right
        rw [heq]
        refine ⟨hlt, List.mem_cons_self a L, rfl, ?_⟩
        intro x hx hxa
        rcases List.mem_cons.mp hx with rfl | hx2
        · exact absurd hxa (lt_irrefl x)
        · exact absurd hxa (not_lt.mpr (le_of_lt (ha x hx2)))
      · right
        refine ⟨lt_trans h1 hlt, List.mem_cons_of_mem a h2, h3, ?_⟩
        intro x hx hxlt
        rcases List.mem_cons.mp hx with rfl | hx2
        · exact h1
        · exact h4 x hx2 hxlt
    · rw [if_neg hlt]
      rcases ih st hpw2 with heq | ⟨h1, h2, h3, h4⟩
      · exact Or.inl heq
      · right
        refine ⟨h1, List.mem_cons_of_mem a h2, h3, ?_⟩
        intro x hx hxlt
        rcases List.mem_cons.mp hx with rfl | hx2
        · exact lt_of_lt_of_le h1 (not_lt.mp hlt)
        · exact h4 x hx2 hxlt

/-- The scanned item list is strictly ascending. -/
lemma itemList_pairwise (d : ℕ) : (itemList d).Pairwise (· < ·) := by
  rw [itemList]
  exact List.Pairwise.map _ (fun a b h => Nat.add_lt_add_right h 1) (List.pairwise_lt_range _)

/-- Membership in the live-item list is the index range `1..maxMemoranda+d`. -/
lemma itemList_mem {d x : ℕ} : x ∈ itemList d ↔ 1 ≤ x ∧ x ≤ maxMemoranda + d := by
  rw [itemList]
  simp only [List.mem_map, List.mem_range]
  constructor
  · rintro ⟨a, ha, rfl⟩
    omega
  · rintro ⟨h1, h2⟩
    exact ⟨x - 1, by omega, by omega⟩

/-! Evaluation lemmas for the concrete recall state. -/

/-- Activation at the concrete position vector: only unit 1 contributes. -/
lemma activationOf_pvEx (M : ℕ → ℕ → ℚ) (item : ℕ) (z sigma : ℚ) :
    activationOf pvEx M 1 item z sigma = M item 1 + z * noiseMult sigma := by
  rw [activationOf_eq_sum]
  have hs := sum_map_single
      (fun t => if pvEx 1 (t + 1) ≠ 0 then pvEx 1 (t + 1) * M item (t + 1) else 0)
      (fun t ht => by
        have hz : pvEx 1 (t + 1) = 0 := by
          simp only [pvEx]
          rw [if_neg (by omega)]
        show (if pvEx 1 (t + 1) ≠ 0 then pvEx 1 (t + 1) * M item (t + 1) else 0) = 0
        rw [hz]
        simp)
      nbPositionUnits (by decide)
  rw [hs]
  norm_num [pvEx]

/-- The concrete retrieval maximum: item 1 wins with activation 1. -/
lemma retrieveMax_ex : retrieveMax pvEx mEx 0 1 (fun _ => 0) (1 / 50) = (1, 1) := by
  have hg : (fun item => activationOf pvEx mEx 1 item ((fun _ => (0 : ℚ)) item) (1 / 50))
      = fun item => mEx item 1 := by
    funext item
    rw [activationOf_pvEx, zero_mul, add_zero]
  rw [retrieveMax, hg, show itemList 0 = [1, 2, 3, 4, 5, 6, 7, 8, 9, 10] from rfl]
  norm_num [maxSel, mEx]

lemma retrieveMax_ex_fst : (retrieveMax pvEx mEx 0 1 (fun _ => 0) (1 / 50)).1 = 1 := by
  rw [retrieveMax_ex]

lemma retrieveMax_ex_snd : (retrieveMax pvEx mEx 0 1 (fun _ => 0) (1 / 50)).2 = 1 := by
  rw [retrieveMax_ex]

/-- Folding a constant increment. -/
lemma foldl_add_const (c : ℚ) :
    ∀ (L : List ℕ) (s : ℚ), L.foldl (fun a _ => a + c) s = s + L.length * c := by
  intro L
  induction L with
  | nil => intro s; simp
  | cons x L ih =>
    intro s
    rw [List.foldl_cons, ih, List.length_cons]
    push_cast
    ring

/-- Squared RMSE of two constant vectors. -/
lemma rmseSq_const (a b : ℚ) (n : ℕ) (hn : (n : ℚ) ≠ 0) :
    rmseSq (fun _ => a) (fun _ => b) n = (a - b) * (a - b) := by
  show ((List.range n).foldl (fun s _ => s + (a - b) * (a - b)) 0) / (n : ℚ)
      = (a - b) * (a - b)
  rw [foldl_add_const, List.length_range, zero_add]
  exact mul_div_cancel_left₀ _ hn

/-- Concrete RMSE values: item 2 matches the WM vector exactly, every other
item is at constant squared distance 1/4. -/
lemma rmseSq_wm_ltm (item : ℕ) :
    rmseSq (wmEx 1) (ltmEx item) nbItemUnits = if item = 2 then 0 else 1 / 4 := by
  by_cases h : item = 2
  · subst h
    rw [if_pos rfl]
    calc rmseSq (wmEx 1) (ltmEx 2) nbItemUnits
        = ((1 : ℚ) / 2 - 1 / 2) * (1 / 2 - 1 / 2) :=
          rmseSq_const (1 / 2) (1 / 2) nbItemUnits (by norm_num [nbItemUnits])
      _ = 0 := by norm_num
  · rw [if_neg h]
    have hL : ltmEx item = fun _ => (0 : ℚ) := funext fun _ => if_neg h
    rw [hL]
    calc rmseSq (wmEx 1) (fun _ => (0 : ℚ)) nbItemUnits
        = ((1 : ℚ) / 2 - 0) * (1 / 2 - 0) :=
          rmseSq_const (1 / 2) 0 nbItemUnits (by norm_num [nbItemUnits])
      _ = 1 / 4 := by norm_num

/-- The concrete LTM match: item 2 is the closest LTM item. -/
lemma ltmMatch_ex : ltmMatch wmEx ltmEx 1 0 = 2 := by
  rw [ltmMatch]
  have hf : (fun item => rmseSq (wmEx 1) (ltmEx item) nbItemUnits)
      = fun item => if item = 2 then (0 : ℚ) else 1 / 4 :=
    funext fun item => rmseSq_wm_ltm item
  rw [hf, show itemList 0 = [1, 2, 3, 4, 5, 6, 7, 8, 9, 10] from rfl]
  norm_num [selMin]

/-- The concrete retrieval outcome: best WM item 1, retrieved LTM item 2. -/
lemma retrieve_ex : retrieve pvEx mEx wmEx ltmEx 0 1 (fun _ => 0) (1 / 50) param_theta = 2 := by
  rw [retrieve, retrieveMax_ex]
  rw [if_neg (by norm_num [param_theta])]
  exact ltmMatch_ex

/-- Pointwise reading of response suppression. -/
lemma responseSuppression_apply (M WM : ℕ → ℕ → ℚ) (b : ℕ) (am L : ℚ) (i j : ℕ) :
    responseSuppression M WM b am L i j
      = if i = b ∧ 1 ≤ j ∧ j ≤ nbPositionUnits ∧ WM b j ≠ 0
        then M i j - L * am else M i j := rfl

/-- Decay by factor 1 changes nothing. -/
lemma decayFn_one (M : ℕ → ℕ → ℚ) (e : ℤ) : decayFn M 1 e = M := by
  funext i j
  rw [decayFn]
  split_ifs with h
  · exact mul_one _
  · rfl

/-! Claim theorems. -/

/-- C1: in retrieve, activation is the masked position sum plus
`randomNormal(0,1) * max(param_sigma,.0001)`.  The claim says the noise term
has standard deviation `max(param_sigma, 1e-4)`, in particular `sigma` (not
0) for every `sigma ∈ (0,1)`.  The source calls the integer `max` of lines
176-181 with float arguments, which truncates them toward zero, so the noise
multiplier is 0 for every `sigma ∈ (0,1)` and the activation is independent
of the normal draw: the code contradicts its own documentation of
`param_sigma` (line 60 and the help text at line 907). -/
theorem retrieve_noise_degenerate (sigma : ℚ) (h1 : 0 < sigma) (h2 : sigma < 1)
    (pv M : ℕ → ℕ → ℚ) (pos item : ℕ) (z : ℚ) :
    noiseMult sigma = 0 ∧
      activationOf pv M pos item z sigma = activationOf pv M pos item 0 sigma := by
  have hts : ctrunc sigma = 0 := by
    rw [ctrunc, if_pos h1.le]
    exact Int.floor_eq_zero_iff.mpr (Set.mem_Ico.mpr ⟨h1.le, h2⟩)
  have htm : ctrunc (1 / 10000) = 0 := by
    rw [ctrunc, if_pos (by norm_num)]
    exact Int.floor_eq_zero_iff.mpr (Set.mem_Ico.mpr ⟨by norm_num, by norm_num⟩)
  have hc : cmaxInt 0 0 = 0 := rfl
  have hnm : noiseMult sigma = 0 := by
    rw [noiseMult, hts, htm, hc]
    exact Int.cast_zero
  refine ⟨hnm, ?_⟩
  simp only [activationOf, hnm, mul_zero]

/-- C1 witness: at the default `param_sigma = 1/50`, the hypotheses hold and
the activation ignores the noise draw. -/
theorem retrieve_noise_degenerate_witness :
    ((0 : ℚ) < 1 / 50 ∧ (1 / 50 : ℚ) < 1) ∧
      (noiseMult (1 / 50) = 0 ∧
        activationOf pvEx mEx 1 1 5 (1 / 50) = activationOf pvEx mEx 1 1 0 (1 / 50)) :=
  ⟨⟨by norm_num, by norm_num⟩,
   retrieve_noise_degenerate (1 / 50) (by norm_num) (by norm_num) pvEx mEx 1 1 5⟩

/-- C5: whenever the computed activation maximum is strictly below the
retrieval threshold, retrieve returns the sentinel 0 through normal control
flow (it is a total function of the state, no abort path), and the recall
step stores the placeholder code 46, i.e. the character `'.'`. -/
theorem retrieve_below_threshold_sentinel (pv M WM LTM : ℕ → ℕ → ℚ) (d pos : ℕ)
    (noise : ℕ → ℚ) (sigma theta : ℚ)
    (h : (retrieveMax pv M d pos noise sigma).1 < theta) :
    retrieve pv M WM LTM d pos noise sigma theta = 0 ∧
      recallSymbolCode (retrieveMax pv M d pos noise sigma).1 theta
        (retrieve pv M WM LTM d pos noise sigma theta) = 46 := by
  have h0 : retrieve pv M WM LTM d pos noise sigma theta = 0 := by
    rw [retrieve, if_pos h]
  refine ⟨h0, ?_⟩
  rw [recallSymbolCode, if_neg (lt_asymm h)]

/-- C5 witness: the all-zero state has activation maximum 0, below the
default theta = 1/20, so retrieval yields 0 and recall stores the dot. -/
theorem retrieve_below_threshold_sentinel_witness :
    (retrieveMax (fun _ _ => 0) (fun _ _ => 0) 0 1 (fun _ => 0) (1 / 50)).1 < 1 / 20 ∧
      (retrieve (fun _ _ => 0) (fun _ _ => 0) (fun _ _ => 0) (fun _ _ => 0) 0 1
          (fun _ => 0) (1 / 50) (1 / 20) = 0 ∧
        recallSymbolCode
          (retrieveMax (fun _ _ => 0) (fun _ _ => 0) 0 1 (fun _ => 0) (1 / 50)).1 (1 / 20)
          (retrieve (fun _ _ => 0) (fun _ _ => 0) (fun _ _ => 0) (fun _ _ => 0) 0 1
            (fun _ => 0) (1 / 50) (1 / 20)) = 46) := by
  have ham : (retrieveMax (fun _ _ => 0) (fun _ _ => 0) 0 1 (fun _ => 0) (1 / 50)).1 < 1 / 20 := by
    have hb : (retrieveMax (fun _ _ => 0) (fun _ _ => 0) 0 1 (fun _ => 0) (1 / 50)).1 ≤ 0 := by
      rw [retrieveMax]
      apply maxSel_fst_le
      · norm_num
      · intro x _
        rw [activationOf_zero]
    exact lt_of_le_of_lt hb (by norm_num)
  exact ⟨ham,
    retrieve_below_threshold_sentinel (fun _ _ => 0) (fun _ _ => 0) (fun _ _ => 0)
      (fun _ _ => 0) 0 1 (fun _ => 0) (1 / 50) (1 / 20) ham⟩

/-- C7: the guard of the main loop aborts only when `distractorNumber` is
already strictly greater than `maxDistractors`, and it runs before the
increment: starting from 0, the 91st distractor symbol still passes the
guard and allocates `distractorNumber = 91`, i.e. item index
`maxMemoranda + 91 = 101 > maxItem = 100`; only the 92nd symbol aborts.
This refutes the claim that at most 90 distractors are ever created and that
the abort happens before a 91st index is allocated. -/
theorem distractor_guard_off_by_one :
    runDistractorSymbols 91 = Except.ok 91 ∧
      (maxMemoranda : ℤ) + 91 > (maxItem : ℤ) ∧
      runDistractorSymbols 92 = Except.error distractorOverflowMsg := by
  exact ⟨by rfl, by decide, by rfl⟩

/-- C8 counterexample: the claim says there exists a configuration under
which memoranda LTM vectors are generated as full-range random patterns.
`Config` (which is inhabited) collects exactly the command-line-settable
state, `PRESET` is the hardcoded constant 1, and for no configuration does
`generateMemorandumUnit` return the random draw: at a state where the random
oracle yields 1/2 and the embeddings table yields 1/3, the result is 1/3
under every configuration. -/
theorem preset_always_used_cex :
    (∃ _cfg : Config, True) ∧
      ¬ ∃ cfg : Config,
          generateMemorandumUnit cfg (fun _ _ => 1 / 2) (fun _ _ => 1 / 3) 1 1 = 1 / 2 := by
  constructor
  · exact ⟨⟨false, false, 500, 7, 1, 4, 6, 3 / 10, 1, 1 / 2, 1 / 20, 1 / 50, 2 / 25,
      1 / 2, 1, 1, 0, 0, 1, 2 / 5, 2 / 5⟩, trivial⟩
  · rintro ⟨cfg, h⟩
    rw [generateMemorandumUnit] at h
    norm_num [PRESET] at h

/-- C8 amended: the preloaded embeddings table is always used for memoranda:
`PRESET` is hardcoded to 1 and no command-line option assigns it, so for
every configuration and every oracle the generated unit is the corresponding
embeddings-table entry and the random-pattern branch is dead code (the
embedding source is mandatory, not optional). -/
theorem memoranda_always_from_table (cfg : Config) (udraw emb : ℕ → ℕ → ℚ) (i j : ℕ) :
    generateMemorandumUnit cfg udraw emb i j = emb (i - 1) (j - 1) := by
  rw [generateMemorandumUnit, if_neg (by simp [PRESET])]

/-- C2 counterexample: a recall state with `activationMax > theta` in which
the best WM item (index 1, the activation maximizer, with nonzero WM value at
the active feature) keeps its association unchanged, while the retrieved LTM
item (index 2) receives the `L*activationMax` subtraction: response
suppression targets `bestLTMItem`, not `bestWMItem` as claimed. -/
theorem recall_suppression_target_cex :
    (retrieveMax pvEx mEx 0 1 (fun _ => 0) (1 / 50)).2 = 1 ∧
      (retrieveMax pvEx mEx 0 1 (fun _ => 0) (1 / 50)).1 > param_theta ∧
      retrieve pvEx mEx wmEx ltmEx 0 1 (fun _ => 0) (1 / 50) param_theta = 2 ∧
      wmEx 1 1 ≠ 0 ∧
      (recallStep pvEx mEx wmEx ltmEx 0 1 (fun _ => 0) (1 / 50) param_theta param_L 1).1 1 1
        = mEx 1 1 ∧
      (recallStep pvEx mEx wmEx ltmEx 0 1 (fun _ => 0) (1 / 50) param_theta param_L 1).1 2 1
        = mEx 2 1 - param_L * (retrieveMax pvEx mEx 0 1 (fun _ => 0) (1 / 50)).1 ∧
      mEx 2 1 - param_L * (retrieveMax pvEx mEx 0 1 (fun _ => 0) (1 / 50)).1 ≠ mEx 2 1 := by
  have ham : (retrieveMax pvEx mEx 0 1 (fun _ => 0) (1 / 50)).1 > param_theta := by
    rw [retrieveMax_ex_fst]
    norm_num [param_theta]
  have hstep : (recallStep pvEx mEx wmEx ltmEx 0 1 (fun _ => 0) (1 / 50) param_theta
      param_L 1).1 = responseSuppression mEx wmEx 2 1 param_L := by
    simp only [recallStep]
    rw [if_pos ham, retrieve_ex, retrieveMax_ex_fst, decayFn_one]
  refine ⟨retrieveMax_ex_snd, ham, retrieve_ex, by norm_num [wmEx], ?_, ?_, ?_⟩
  · rw [hstep, responseSuppression_apply]
    rw [if_neg (by norm_num)]
  · rw [hstep, retrieveMax_ex_fst, responseSuppression_apply]
    rw [if_pos ⟨rfl, by decide, by decide, by norm_num [wmEx]⟩]
  · rw [retrieveMax_ex_fst]
    norm_num [mEx, param_L]

/-- C2 amended: whenever `activationMax > theta`, response suppression
subtracts `L*activationMax` from the position-feature associations of the
retrieved item (the LTM item returned by retrieve), masked by that item's
own nonzero WM-vector entries; the rows of all other items, including the
best WM item when it differs from the retrieved one, only undergo decay. -/
theorem recall_suppression_retrieved_item (pv M WM LTM : ℕ → ℕ → ℚ) (d pos : ℕ)
    (noise : ℕ → ℚ) (sigma theta L df : ℚ) (j : ℕ)
    (ham : (retrieveMax pv M d pos noise sigma).1 > theta)
    (hj1 : 1 ≤ j) (hj2 : j ≤ nbPositionUnits) :
    (WM (retrieve pv M WM LTM d pos noise sigma theta) j ≠ 0 →
        (recallStep pv M WM LTM d pos noise sigma theta L df).1
            (retrieve pv M WM LTM d pos noise sigma theta) j
          = decayFn M df (-1) (retrieve pv M WM LTM d pos noise sigma theta) j
            - L * (retrieveMax pv M d pos noise sigma).1) ∧
      (WM (retrieve pv M WM LTM d pos noise sigma theta) j = 0 →
        (recallStep pv M WM LTM d pos noise sigma theta L df).1
            (retrieve pv M WM LTM d pos noise sigma theta) j
          = decayFn M df (-1) (retrieve pv M WM LTM d pos noise sigma theta) j) ∧
      ∀ i, i ≠ retrieve pv M WM LTM d pos noise sigma theta →
        (recallStep pv M WM LTM d pos noise sigma theta L df).1 i j
          = decayFn M df (-1) i j := by
  have hstep : (recallStep pv M WM LTM d pos noise sigma theta L df).1
      = responseSuppression (decayFn M df (-1)) WM
          (retrieve pv M WM LTM d pos noise sigma theta)
          (retrieveMax pv M d pos noise sigma).1 L := by
    simp only [recallStep]
    rw [if_pos ham]
  rw [hstep]
  refine ⟨?_, ?_, ?_⟩
  · intro hW
    rw [responseSuppression_apply]
    rw [if_pos ⟨rfl, hj1, hj2, hW⟩]
  · intro hW
    rw [responseSuppression_apply]
    rw [if_neg]
    intro hc
    exact hc.2.2.2 hW
  · intro i hi
    rw [responseSuppression_apply]
    rw [if_neg]
    intro hc
    exact hi hc.1

/-- C2 amended witness: the concrete recall state instantiates the amended
suppression theorem at feature 1. -/
theorem recall_suppression_retrieved_item_witness :
    ((retrieveMax pvEx mEx 0 1 (fun _ => 0) (1 / 50)).1 > param_theta ∧
        (1 : ℕ) ≤ 1 ∧ (1 : ℕ) ≤ nbPositionUnits) ∧
      ((wmEx (retrieve pvEx mEx wmEx ltmEx 0 1 (fun _ => 0) (1 / 50) param_theta) 1 ≠ 0 →
          (recallStep pvEx mEx wmEx ltmEx 0 1 (fun _ => 0) (1 / 50) param_theta param_L 1).1
              (retrieve pvEx mEx wmEx ltmEx 0 1 (fun _ => 0) (1 / 50) param_theta) 1
            = decayFn mEx 1 (-1) (retrieve pvEx mEx wmEx ltmEx 0 1 (fun _ => 0) (1 / 50)
                param_theta) 1
              - param_L * (retrieveMax pvEx mEx 0 1 (fun _ => 0) (1 / 50)).1) ∧
        (wmEx (retrieve pvEx mEx wmEx ltmEx 0 1 (fun _ => 0) (1 / 50) param_theta) 1 = 0 →
          (recallStep pvEx mEx wmEx ltmEx 0 1 (fun _ => 0) (1 / 50) param_theta param_L 1).1
              (retrieve pvEx mEx wmEx ltmEx 0 1 (fun _ => 0) (1 / 50) param_theta) 1
            = decayFn mEx 1 (-1) (retrieve pvEx mEx wmEx ltmEx 0 1 (fun _ => 0) (1 / 50)
                param_theta) 1) ∧
        ∀ i, i ≠ retrieve pvEx mEx wmEx ltmEx 0 1 (fun _ => 0) (1 / 50) param_theta →
          (recallStep pvEx mEx wmEx ltmEx 0 1 (fun _ => 0) (1 / 50) param_theta param_L 1).1 i 1
            = decayFn mEx 1 (-1) i 1) :=
  ⟨⟨by rw [retrieveMax_ex_fst]; norm_num [param_theta], by decide, by decide⟩,
   recall_suppression_retrieved_item pvEx mEx wmEx ltmEx 0 1 (fun _ => 0) (1 / 50)
     param_theta param_L 1 1 (by rw [retrieveMax_ex_fst]; norm_num [param_theta])
     (by decide) (by decide)⟩

/-- C6: whenever retrieve succeeds (activationMax not below theta), the
returned item is a live item whose LTM vector minimizes the RMSE (computed
over all `nbItemUnits` dimensions, sentinels included, exactly as the
`rmseSq` definition records) against the WM vector of the best WM item, and
every live item with a smaller index is strictly worse: ties resolve to the
first-encountered minimum.  The hypothesis `hfirst` states that item 1's
RMSE is below the source's initial bound 99999 (always true in practice; in
C the result variable is uninitialized until the first improvement). -/
theorem retrieve_min_rmse (pv M WM LTM : ℕ → ℕ → ℚ) (d pos : ℕ) (noise : ℕ → ℚ)
    (sigma theta : ℚ)
    (hsucc : ¬ (retrieveMax pv M d pos noise sigma).1 < theta)
    (hfirst : rmseSq (WM (retrieveMax pv M d pos noise sigma).2) (LTM 1) nbItemUnits
        < 99999 ^ 2) :
    (1 ≤ retrieve pv M WM LTM d pos noise sigma theta ∧
        retrieve pv M WM LTM d pos noise sigma theta ≤ maxMemoranda + d) ∧
      (∀ item, 1 ≤ item → item ≤ maxMemoranda + d →
        rmseSq (WM (retrieveMax pv M d pos noise sigma).2)
            (LTM (retrieve pv M WM LTM d pos noise sigma theta)) nbItemUnits
          ≤ rmseSq (WM (retrieveMax pv M d pos noise sigma).2) (LTM item) nbItemUnits ∧
        Real.sqrt ((rmseSq (WM (retrieveMax pv M d pos noise sigma).2)
            (LTM (retrieve pv M WM LTM d pos noise sigma theta)) nbItemUnits : ℚ) : ℝ)
          ≤ Real.sqrt ((rmseSq (WM (retrieveMax pv M d pos noise sigma).2)
              (LTM item) nbItemUnits : ℚ) : ℝ)) ∧
      ∀ item, 1 ≤ item → item < retrieve pv M WM LTM d pos noise sigma theta →
        rmseSq (WM (retrieveMax pv M d pos noise sigma).2)
            (LTM (retrieve pv M WM LTM d pos noise sigma theta)) nbItemUnits
          < rmseSq (WM (retrieveMax pv M d pos noise sigma).2) (LTM item) nbItemUnits := by
  have hr : retrieve pv M WM LTM d pos noise sigma theta
      = (selMin (fun item => rmseSq (WM (retrieveMax pv M d pos noise sigma).2)
          (LTM item) nbItemUnits) (itemList d) (99999 ^ 2, 0)).2 := by
    rw [retrieve, if_neg hsucc, ltmMatch]
  have h1mem : (1 : ℕ) ∈ itemList d := by
    rw [itemList_mem]
    refine ⟨le_refl 1, ?_⟩
    show 1 ≤ 10 + d
    omega
  have hle := selMin_fst_le
      (fun item => rmseSq (WM (retrieveMax pv M d pos noise sigma).2) (LTM item) nbItemUnits)
      (itemList d) (99999 ^ 2, 0) 1 h1mem
  rcases selMin_cases
      (fun item => rmseSq (WM (retrieveMax pv M d pos noise sigma).2) (LTM item) nbItemUnits)
      (itemList d) (99999 ^ 2, 0) (itemList_pairwise d) with heq | ⟨hlt, hmem, hfeq, htie⟩
  · exfalso
    rw [heq] at hle
    exact absurd (lt_of_le_of_lt hle hfirst) (lt_irrefl _)
  · have hbounds := itemList_mem.mp hmem
    refine ⟨by rw [hr]; exact hbounds, ?_, ?_⟩
    · intro item hi1 hi2
      have hx : item ∈ itemList d := itemList_mem.mpr ⟨hi1, hi2⟩
      have hmin := selMin_fst_le
          (fun item => rmseSq (WM (retrieveMax pv M d pos noise sigma).2)
            (LTM item) nbItemUnits) (itemList d) (99999 ^ 2, 0) item hx
      rw [← hfeq] at hmin
      rw [hr]
      refine ⟨hmin, Real.sqrt_le_sqrt ?_⟩
      exact_mod_cast hmin
    · intro item hi1 hi2
      rw [hr] at hi2
      have hx : item ∈ itemList d := by
        rw [itemList_mem]
        exact ⟨hi1, le_trans (le_of_lt hi2) hbounds.2⟩
      have := htie item hx hi2
      rw [← hfeq] at this
      rw [hr]
      exact this

/-- C6 witness: the concrete recall state satisfies the success hypotheses
and the minimal-RMSE conclusion. -/
theorem retrieve_min_rmse_witness :
    (¬ (retrieveMax pvEx mEx 0 1 (fun _ => 0) (1 / 50)).1 < param_theta ∧
        rmseSq (wmEx (retrieveMax pvEx mEx 0 1 (fun _ => 0) (1 / 50)).2) (ltmEx 1)
          nbItemUnits < 99999 ^ 2) ∧
      ((1 ≤ retrieve pvEx mEx wmEx ltmEx 0 1 (fun _ => 0) (1 / 50) param_theta ∧
          retrieve pvEx mEx wmEx ltmEx 0 1 (fun _ => 0) (1 / 50) param_theta
            ≤ maxMemoranda + 0) ∧
        (∀ item, 1 ≤ item → item ≤ maxMemoranda + 0 →
          rmseSq (wmEx (retrieveMax pvEx mEx 0 1 (fun _ => 0) (1 / 50)).2)
              (ltmEx (retrieve pvEx mEx wmEx ltmEx 0 1 (fun _ => 0) (1 / 50) param_theta))
              nbItemUnits
            ≤ rmseSq (wmEx (retrieveMax pvEx mEx 0 1 (fun _ => 0) (1 / 50)).2)
                (ltmEx item) nbItemUnits ∧
          Real.sqrt ((rmseSq (wmEx (retrieveMax pvEx mEx 0 1 (fun _ => 0) (1 / 50)).2)
              (ltmEx (retrieve pvEx mEx wmEx ltmEx 0 1 (fun _ => 0) (1 / 50) param_theta))
              nbItemUnits : ℚ) : ℝ)
            ≤ Real.sqrt ((rmseSq (wmEx (retrieveMax pvEx mEx 0 1 (fun _ => 0) (1 / 50)).2)
                (ltmEx item) nbItemUnits : ℚ) : ℝ)) ∧
        ∀ item, 1 ≤ item →
          item < retrieve pvEx mEx wmEx ltmEx 0 1 (fun _ => 0) (1 / 50) param_theta →
          rmseSq (wmEx (retrieveMax pvEx mEx 0 1 (fun _ => 0) (1 / 50)).2)
              (ltmEx (retrieve pvEx mEx wmEx ltmEx 0 1 (fun _ => 0) (1 / 50) param_theta))
              nbItemUnits
            < rmseSq (wmEx (retrieveMax pvEx mEx 0 1 (fun _ => 0) (1 / 50)).2)
                (ltmEx item) nbItemUnits) :=
  ⟨⟨by rw [retrieveMax_ex_fst]; norm_num [param_theta],
    by rw [retrieveMax_ex_snd, rmseSq_wm_ltm]; norm_num⟩,
   retrieve_min_rmse pvEx mEx wmEx ltmEx 0 1 (fun _ => 0) (1 / 50) param_theta
     (by rw [retrieveMax_ex_fst]; norm_num [param_theta])
     (by rw [retrieveMax_ex_snd, rmseSq_wm_ltm]; norm_num)⟩

/-! Lemmas about createOverlapingRandomPattern. -/

lemma corpFill1_apply (pattern : ℤ → ℚ) (S j : ℤ) :
    corpFill1 pattern S j = if 1 ≤ j ∧ j ≤ S then -1 else pattern j := rfl

lemma corpFill2_apply (pattern : ℤ → ℚ) (S : ℤ) (p : ℚ) (j : ℤ) :
    corpFill2 pattern S p j = if S + 1 ≤ j ∧ j ≤ S + corpK2 S p then -1 else pattern j := rfl

lemma corpFill5_apply (S i2 : ℤ) (v : ℤ → ℚ) (j : ℤ) :
    corpFill5 S i2 v j = if i2 + S + 1 ≤ j ∧ j ≤ S then -1 else v j := rfl

lemma createSimilarRandomPattern_apply (pattern refPattern : ℤ → ℚ) (std : ℚ)
    (udraw ndraw : ℤ → ℚ) (lo hi j : ℤ) :
    createSimilarRandomPattern pattern refPattern std udraw ndraw lo hi j
      = if lo ≤ j ∧ j ≤ hi then
          (if refPattern j = -1 then udraw j else clamp01 (ndraw j)) else pattern j := rfl

lemma corpK2_nonneg (S : ℤ) (p : ℚ) : 0 ≤ corpK2 S p := le_max_left 0 _

/-- Every shuffle counter value lies in `patternSize+2 .. 2*patternSize+1`. -/
lemma corpCs_mem {S c : ℤ} (hS : 1 ≤ S) (hc : c ∈ corpCs S) :
    S + 2 ≤ c ∧ c ≤ 2 * S + 1 := by
  rw [corpCs] at hc
  rcases List.mem_map.mp hc with ⟨t, ht, rfl⟩
  rw [List.mem_range] at ht
  have htS : (t : ℤ) < S := by
    have h1 : (t : ℤ) < ((S.toNat : ℕ) : ℤ) := by exact_mod_cast ht
    rwa [Int.toNat_of_nonneg (by omega)] at h1
  omega

/-- Every swap partner index lies at or above `firstUsedUnit = patternSize+1`. -/
lemma aleaIdx_ge (S : ℤ) (r : ℕ) : S + 1 ≤ aleaIdx S r := by
  rw [aleaIdx]
  omega

/-- A fold of swaps whose indices all avoid `j` leaves cell `j` unchanged. -/
lemma swap_fold_outside (S : ℤ) (alea : ℤ → ℕ) :
    ∀ (L : List ℤ) (v : ℤ → ℚ) (j : ℤ),
      (∀ c ∈ L, j ≠ aleaIdx S (alea c) ∧ j ≠ c) →
      L.foldl (fun w c => swapF w (aleaIdx S (alea c)) c) v j = v j := by
  intro L
  induction L with
  | nil => intro v j _; rfl
  | cons c L ih =>
    intro v j h
    rw [List.foldl_cons]
    rw [ih _ j (fun x hx => h x (List.mem_cons_of_mem c hx))]
    have hc := h c (List.mem_cons_self c L)
    rw [swapF]
    rw [if_neg hc.1, if_neg hc.2]

/-- C3: for every index `1..patternSize` of the result pattern, the value is
the sentinel -1: the first fill loop (its reference-pattern guard commented
out in the source) sentinels the whole in-bounds pattern, and every later
write of the function lands at an index strictly greater than `patternSize`.
This refutes the claimed prefix/noisy-span/sentinel structure and the claim
that the result is not entirely sentinel: the "characterized" span is
written out of bounds. -/
theorem corp_inbounds_all_sentinel (pattern refPattern : ℤ → ℚ) (S : ℤ) (p std : ℚ)
    (udraw ndraw : ℤ → ℚ) (alea : ℤ → ℕ) (j : ℤ) (h1 : 1 ≤ j) (h2 : j ≤ S) :
    createOverlapingRandomPattern pattern refPattern S p std udraw ndraw alea j = -1 := by
  have hS1 : (1 : ℤ) ≤ S := le_trans h1 h2
  have hk2 : 0 ≤ corpK2 S p := corpK2_nonneg S p
  have hi2 : S + 1 ≤ corpI2 S p := by
    rw [corpI2]
    omega
  rw [createOverlapingRandomPattern, corpFill5_apply, if_neg (by omega)]
  rw [corpShuffle]
  rw [swap_fold_outside S alea (corpCs S) _ j ?hout]
  case hout =>
    intro c hc
    have hb := corpCs_mem hS1 hc
    have ha := aleaIdx_ge S (alea c)
    constructor <;> omega
  rw [createSimilarRandomPattern_apply, if_neg (by omega)]
  rw [corpFill2_apply, if_neg (by omega)]
  rw [corpFill1_apply, if_pos ⟨h1, h2⟩]

/-- C3 witness: the default call (`patternSize = nbItemUnits = 100`,
`p = ido = 0.4`, `idn = 1`) leaves cell 1 of the result at the sentinel. -/
theorem corp_inbounds_all_sentinel_witness :
    ((1 : ℤ) ≤ 1 ∧ (1 : ℤ) ≤ 100) ∧
      createOverlapingRandomPattern (fun _ => 0) (fun _ => 0) 100 (2 / 5) 1
        (fun _ => 0) (fun _ => 0) (fun _ => 0) 1 = -1 :=
  ⟨⟨by decide, by decide⟩,
   corp_inbounds_all_sentinel (fun _ => 0) (fun _ => 0) 100 (2 / 5) 1 (fun _ => 0)
     (fun _ => 0) (fun _ => 0) 1 (by decide) (by decide)⟩

/-- C4: with `patternSize = 100` the claim that every pattern access stays
within indices `1..patternSize` is false: the very first shuffle iteration
writes cell `firstUsedUnit + patternSize = 201`, which exceeds 100 (and the
backing array row only has valid indices 0..100).  `corpWriteIndices` is the
complete write trace of `createOverlapingRandomPattern`; the write at 201 is
performed for every overlap fraction and every random stream. -/
theorem corp_write_out_of_bounds (p : ℚ) (alea : ℤ → ℕ) :
    (201 : ℤ) ∈ corpCs 100 ∧ (201 : ℤ) ∈ corpWriteIndices 100 p alea ∧
      ¬ ((201 : ℤ) ≤ 100) := by
  have hcs : (201 : ℤ) ∈ corpCs 100 := by
    rw [corpCs]
    refine List.mem_map.mpr ⟨0, ?_, by decide⟩
    rw [List.mem_range]
    decide
  refine ⟨hcs, ?_, by decide⟩
  rw [corpWriteIndices]
  simp only [List.mem_append]
  tauto

/-! Lemmas about the refresh scheduler. -/

/-- The computed reencoding duration is strictly positive whenever the rate
numerator is positive and time remains: the 0.1 rate floor prevents a
degenerate nonpositive rate, and the clamp keeps the remaining time. -/
lemma refreshDur_pos (numer r t : ℚ) (hnum : 0 < numer) (ht : 0 < t) :
    0 < refreshDur numer r t := by
  rw [refreshDur]
  by_cases hclamp : numer / (if r < 1 / 10 then 1 / 10 else r) > t
  · rw [if_pos hclamp]
    exact ht
  · rw [if_neg hclamp]
    apply div_pos hnum
    split_ifs with h
    · norm_num
    · exact lt_of_lt_of_le (by norm_num) (not_lt.mp h)

/-- Unfolding one window slot. -/
lemma windowDurations_succ (numer t : ℚ) (rates : ℕ → ℚ) (m : ℕ) :
    windowDurations numer t rates (m + 1)
      = ((windowDurations numer t rates m).1
          ++ [encodeRefreshDuration numer (rates m) t (windowDurations numer t rates m).2],
        encodeRefreshDuration numer (rates m) t (windowDurations numer t rates m).2) := by
  rw [windowDurations, List.range_succ, List.foldl_append, List.foldl_cons, List.foldl_nil]
  rfl

/-- The whole attentional-focus window reuses the duration computed at its
first slot: the duration list is constant and the final
`reencodingDuration` is the first slot's value. -/
lemma windowDurations_spec (numer t : ℚ) (rates : ℕ → ℚ)
    (hnum : 0 < numer) (ht : 0 < t) :
    ∀ afsi, 1 ≤ afsi →
      (windowDurations numer t rates afsi).1
          = List.replicate afsi (refreshDur numer (rates 0) t) ∧
        (windowDurations numer t rates afsi).2 = refreshDur numer (rates 0) t := by
  have hne : refreshDur numer (rates 0) t ≠ -1 :=
    (lt_trans (by norm_num) (refreshDur_pos numer (rates 0) t hnum ht)).ne'
  intro afsi hafsi
  induction afsi with
  | zero => omega
  | succ m ih =>
    rcases Nat.eq_zero_or_pos m with h0 | hpos
    · subst h0
      have h1 : windowDurations numer t rates 1
          = ([refreshDur numer (rates 0) t], refreshDur numer (rates 0) t) := by
        rw [show (1 : ℕ) = 0 + 1 from rfl, windowDurations_succ]
        rw [show windowDurations numer t rates 0 = ([], -1) from rfl]
        rw [encodeRefreshDuration, if_pos rfl]
        rw [List.nil_append]
      rw [h1]
      exact ⟨rfl, rfl⟩
    · obtain ⟨ih1, ih2⟩ := ih hpos
      rw [windowDurations_succ, ih1, ih2, encodeRefreshDuration, if_neg hne]
      constructor
      · rw [← List.replicate_succ' m (refreshDur numer (rates 0) t)]
      · rfl

/-- One outer refresh pass from a positive remaining time either exhausts the
budget exactly or decreases it by at least `numer / max(B, 0.1)`, provided
all rate draws are bounded by `B`. -/
lemma refreshOuterPass_decrease (numer B t : ℚ) (rates : ℕ → ℚ) (afsi : ℕ)
    (hnum : 0 < numer) (hB : ∀ m, rates m ≤ B) (hafsi : 1 ≤ afsi) (ht : 0 < t) :
    refreshOuterPass numer rates afsi t = 0 ∨
      refreshOuterPass numer rates afsi t
        ≤ t - numer / (if B < 1 / 10 then 1 / 10 else B) := by
  obtain ⟨-, h2⟩ := windowDurations_spec numer t rates hnum ht afsi hafsi
  rw [refreshOuterPass, h2, refreshDur]
  by_cases hcl : numer / (if rates 0 < 1 / 10 then 1 / 10 else rates 0) > t
  · rw [if_pos hcl, sub_self, if_neg (lt_irrefl 0)]
    exact Or.inl rfl
  · rw [if_neg hcl]
    right
    have hrf_pos : 0 < (if rates 0 < 1 / 10 then 1 / 10 else rates 0 : ℚ) := by
      split_ifs with h
      · norm_num
      · exact lt_of_lt_of_le (by norm_num) (not_lt.mp h)
    have hRm_pos : 0 < (if B < 1 / 10 then 1 / 10 else B : ℚ) := by
      split_ifs with h
      · norm_num
      · exact lt_of_lt_of_le (by norm_num) (not_lt.mp h)
    have hrf_le : (if rates 0 < 1 / 10 then 1 / 10 else rates 0 : ℚ)
        ≤ (if B < 1 / 10 then 1 / 10 else B) := by
      have h0 := hB 0
      split_ifs with ha hb hb <;> linarith
    have hdiv : numer / (if B < 1 / 10 then 1 / 10 else B)
        ≤ numer / (if rates 0 < 1 / 10 then 1 / 10 else rates 0) := by
      rw [div_le_div_iff₀ hRm_pos hrf_pos]
      exact mul_le_mul_of_nonneg_left hrf_le hnum.le
    have hd_le_t : numer / (if rates 0 < 1 / 10 then 1 / 10 else rates 0) ≤ t :=
      not_lt.mp hcl
    rw [if_neg (by linarith)]
    linarith

/-- The while guard freezes a nonpositive remaining time. -/
lemma refreshIter_frozen (numer : ℚ) (rates : ℕ → ℕ → ℚ) (afsi k : ℕ) (t0 : ℚ)
    (h : refreshIter numer rates afsi k t0 ≤ 0) :
    refreshIter numer rates afsi (k + 1) t0 = refreshIter numer rates afsi k t0 := by
  rw [refreshIter, if_neg (not_lt.mpr h)]

/-- After `k` passes the remaining time is nonpositive or has lost at least
`k` times the minimal pass decrement. -/
lemma refreshIter_bound (numer B t0 : ℚ) (rates : ℕ → ℕ → ℚ) (afsi : ℕ)
    (hnum : 0 < numer) (hB : ∀ n m, rates n m ≤ B) (hafsi : 1 ≤ afsi) :
    ∀ k, refreshIter numer rates afsi k t0 ≤ 0 ∨
      refreshIter numer rates afsi k t0
        ≤ t0 - (k : ℚ) * (numer / (if B < 1 / 10 then 1 / 10 else B)) := by
  intro k
  induction k with
  | zero =>
    right
    rw [refreshIter]
    push_cast
    linarith
  | succ n ih =>
    by_cases hpos : refreshIter numer rates afsi n t0 > 0
    · have hiter : refreshIter numer rates afsi (n + 1) t0
          = refreshOuterPass numer (rates n) afsi (refreshIter numer rates afsi n t0) := by
        rw [refreshIter, if_pos hpos]
      have hprev : refreshIter numer rates afsi n t0
          ≤ t0 - (n : ℚ) * (numer / (if B < 1 / 10 then 1 / 10 else B)) := by
        rcases ih with h | h
        · exact absurd hpos (not_lt.mpr h)
        · exact h
      rcases refreshOuterPass_decrease numer B _ (rates n) afsi hnum (hB n) hafsi hpos
        with hz | hle
      · left
        rw [hiter, hz]
      · right
        rw [hiter]
        push_cast
        linarith
    · left
      rw [refreshIter, if_neg hpos]
      exact not_lt.mp hpos

/-- C10: the refresh loop terminates for every time budget and every
`lastPosition ≥ 1`, the loop exits (is frozen) as soon as the remaining time
is not strictly positive, and each window computes one strictly positive
reencoding duration on its first slot and reuses it verbatim for the rest of
the window.  `numer` stands for the positive constant `-log(1-var_tauR)`
(equal to `param_R*param_Tr`); `rates n m` is the m-th processing-rate draw
of pass `n`, bounded by `B` (the program's Box-Muller draws over a bounded
`rand()` stream are bounded); the 0.1 floor is part of `refreshDur`. -/
theorem refresh_terminates (numer B t0 : ℚ) (rates : ℕ → ℕ → ℚ) (afs lastPosition : ℕ)
    (hnum : 0 < numer) (hB : ∀ n m, rates n m ≤ B)
    (hafs : 1 ≤ afs) (hlast : 1 ≤ lastPosition) :
    (∃ k, refreshIter numer rates (min afs lastPosition) k t0 ≤ 0) ∧
      (∀ k, refreshIter numer rates (min afs lastPosition) k t0 ≤ 0 →
        refreshIter numer rates (min afs lastPosition) (k + 1) t0
          = refreshIter numer rates (min afs lastPosition) k t0) ∧
      ∀ n t, 0 < t →
        (windowDurations numer t (rates n) (min afs lastPosition)).1
            = List.replicate (min afs lastPosition) (refreshDur numer (rates n 0) t) ∧
          0 < refreshDur numer (rates n 0) t := by
  have hafsi : 1 ≤ min afs lastPosition := le_min hafs hlast
  have hRm_pos : 0 < (if B < 1 / 10 then 1 / 10 else B : ℚ) := by
    split_ifs with h
    · norm_num
    · exact lt_of_lt_of_le (by norm_num) (not_lt.mp h)
  have hdelta : 0 < numer / (if B < 1 / 10 then 1 / 10 else B) := div_pos hnum hRm_pos
  refine ⟨?_, fun k => refreshIter_frozen numer rates (min afs lastPosition) k t0, ?_⟩
  · obtain ⟨n, hn⟩ := exists_nat_ge (t0 / (numer / (if B < 1 / 10 then 1 / 10 else B)))
    rcases refreshIter_bound numer B t0 rates (min afs lastPosition) hnum hB hafsi n
      with h | h
    · exact ⟨n, h⟩
    · refine ⟨n, ?_⟩
      have ht0 : t0 ≤ (n : ℚ) * (numer / (if B < 1 / 10 then 1 / 10 else B)) := by
        rw [div_le_iff₀ hdelta] at hn
        linarith
      linarith
  · intro n t ht
    exact ⟨(windowDurations_spec numer t (rates n) hnum ht (min afs lastPosition) hafsi).1,
      refreshDur_pos numer (rates n 0) t hnum ht⟩

/-- C10 witness: concrete positive numerator, bounded constant rates, unit
attentional focus and one studied position. -/
theorem refresh_terminates_witness :
    ((0 : ℚ) < 1 / 2 ∧ (∀ n m : ℕ, (fun _ _ => (6 : ℚ)) n m ≤ 6) ∧ (1 : ℕ) ≤ 1) ∧
      ((∃ k, refreshIter (1 / 2) (fun _ _ => 6) (min 1 1) k 1 ≤ 0) ∧
        (∀ k, refreshIter (1 / 2) (fun _ _ => 6) (min 1 1) k 1 ≤ 0 →
          refreshIter (1 / 2) (fun _ _ => 6) (min 1 1) (k + 1) 1
            = refreshIter (1 / 2) (fun _ _ => 6) (min 1 1) k 1) ∧
        ∀ (n : ℕ) (t : ℚ), 0 < t →
          (windowDurations (1 / 2) t (fun _ => (6 : ℚ)) (min 1 1)).1
              = List.replicate (min 1 1) (refreshDur (1 / 2) 6 t) ∧
            0 < refreshDur (1 / 2) 6 t) :=
  ⟨⟨by norm_num, fun _ _ => le_refl 6, le_refl 1⟩,
   refresh_terminates (1 / 2) 6 1 (fun _ _ => 6) 1 1 (by norm_num)
     (fun _ _ => le_refl 6) (le_refl 1) (le_refl 1)⟩

/-! Lemmas about generatePositionRepresentations. -/

lemma upd_apply (v : ℕ → ℤ) (i : ℕ) (x : ℤ) (j : ℕ) :
    upd v i x j = if j = i then x else v j := rfl

lemma zeroRange_succ (v : ℕ → ℤ) (lo n : ℕ) :
    zeroRange v lo (n + 1) = upd (zeroRange v lo n) (lo + n) 0 := by
  rw [zeroRange, List.range_succ, List.foldl_append, List.foldl_cons, List.foldl_nil]
  rfl

lemma zeroRange_apply (v : ℕ → ℤ) (lo : ℕ) :
    ∀ (len j : ℕ), zeroRange v lo len j = if lo ≤ j ∧ j < lo + len then 0 else v j := by
  intro len
  induction len with
  | zero =>
    intro j
    rw [show zeroRange v lo 0 = v from rfl, if_neg (by omega)]
  | succ n ih =>
    intro j
    rw [zeroRange_succ, upd_apply]
    by_cases hj : j = lo + n
    · rw [if_pos hj, if_pos (by omega)]
    · rw [if_neg hj, ih j]
      by_cases hc : lo ≤ j ∧ j < lo + n
      · rw [if_pos hc, if_pos (by omega)]
      · rw [if_neg hc, if_neg (by omega)]

lemma copyRange_succ (src v : ℕ → ℤ) (lo n : ℕ) :
    copyRange src v lo (n + 1) = upd (copyRange src v lo n) (lo + n) (src (lo + n)) := by
  rw [copyRange, List.range_succ, List.foldl_append, List.foldl_cons, List.foldl_nil]
  rfl

lemma copyRange_apply (src v : ℕ → ℤ) (lo : ℕ) :
    ∀ (len j : ℕ), copyRange src v lo len j = if lo ≤ j ∧ j < lo + len then src j else v j := by
  intro len
  induction len with
  | zero =>
    intro j
    rw [show copyRange src v lo 0 = v from rfl, if_neg (by omega)]
  | succ n ih =>
    intro j
    rw [copyRange_succ, upd_apply]
    by_cases hj : j = lo + n
    · subst hj
      rw [if_pos rfl, if_pos (by omega)]
    · rw [if_neg hj, ih j]
      by_cases hc : lo ≤ j ∧ j < lo + n
      · rw [if_pos hc, if_pos (by omega)]
      · rw [if_neg hc, if_neg (by omega)]

/-- A fold of block steps that are local to their own block leaves any cell
outside all the processed blocks unchanged. -/
lemma foldl_preserve (step : (ℕ → ℤ) × ℕ → ℕ → (ℕ → ℤ) × ℕ)
    (hloc : ∀ vk b j, (j < b * 6 + 1 ∨ b * 6 + 6 < j) → (step vk b).1 j = vk.1 j) :
    ∀ (L : List ℕ) (vk : (ℕ → ℤ) × ℕ) (j : ℕ),
      (∀ b ∈ L, j < b * 6 + 1 ∨ b * 6 + 6 < j) → (L.foldl step vk).1 j = vk.1 j := by
  intro L
  induction L with
  | nil => intro vk j _; rfl
  | cons a L ih =>
    intro vk j h
    rw [List.foldl_cons]
    rw [ih (step vk a) j (fun b hb => h b (List.mem_cons_of_mem a hb))]
    exact hloc vk a j (h a (List.mem_cons_self a L))

/-- `blockOne` only depends on the values of the block's own six units. -/
lemma blockOne_congr {v w : ℕ → ℤ} {b : ℕ}
    (h : ∀ i, 1 ≤ i → i ≤ 6 → w (b * 6 + i) = v (b * 6 + i)) :
    blockOne v b → blockOne w b := by
  rintro ⟨u, h1, h2, h3⟩
  exact ⟨u, h1, h2, fun i hi1 hi2 => (h i hi1 hi2).trans (h3 i hi1 hi2)⟩

/-- Folding block-local, block-establishing steps over distinct blocks makes
every processed block one-hot. -/
lemma foldl_blockOne (step : (ℕ → ℤ) × ℕ → ℕ → (ℕ → ℤ) × ℕ) (Pb : ℕ → (ℕ → ℤ) → Prop)
    (hloc : ∀ vk b j, (j < b * 6 + 1 ∨ b * 6 + 6 < j) → (step vk b).1 j = vk.1 j)
    (hPcongr : ∀ b v w, (∀ i, 1 ≤ i → i ≤ 6 → w (b * 6 + i) = v (b * 6 + i)) →
      Pb b v → Pb b w)
    (hone : ∀ vk b, Pb b vk.1 → blockOne (step vk b).1 b) :
    ∀ (L : List ℕ), L.Pairwise (fun a b => a ≠ b) → ∀ vk : (ℕ → ℤ) × ℕ,
      (∀ b ∈ L, Pb b vk.1) → ∀ b ∈ L, blockOne ((L.foldl step vk).1) b := by
  intro L
  induction L with
  | nil => intro _ vk _ b hb; cases hb
  | cons a L ih =>
    intro hpw vk hP b hb
    obtain ⟨hne, hpw2⟩ := List.pairwise_cons.mp hpw
    rw [List.foldl_cons]
    rcases List.mem_cons.mp hb with rfl | hbL
    · have h1 : blockOne (step vk b).1 b := hone vk b (hP b hb)
      have h2 : ∀ i, 1 ≤ i → i ≤ 6 →
          (L.foldl step (step vk b)).1 (b * 6 + i) = (step vk b).1 (b * 6 + i) := by
        intro i hi1 hi2
        apply foldl_preserve step hloc
        intro b2 hb2
        have hne2 := hne b2 hb2
        omega
      exact blockOne_congr h2 h1
    · refine ih hpw2 (step vk a) ?_ b hbL
      intro b2 hb2
      refine hPcongr b2 vk.1 (step vk a).1 ?_ (hP b2 (List.mem_cons_of_mem a hb2))
      intro i hi1 hi2
      apply hloc
      have hne2 := hne b2 hb2
      omega

lemma initBlock_fst (rand : ℕ → ℕ) (vk : (ℕ → ℤ) × ℕ) (b : ℕ) :
    (initBlock rand vk b).1 = upd vk.1 (b * 6 + (1 + rand vk.2 % 6)) 1 := rfl

lemma initBlock_loc (rand : ℕ → ℕ) :
    ∀ (vk : (ℕ → ℤ) × ℕ) (b j : ℕ), (j < b * 6 + 1 ∨ b * 6 + 6 < j) →
      (initBlock rand vk b).1 j = vk.1 j := by
  intro vk b j hj
  rw [initBlock_fst, upd_apply, if_neg ?hne]
  case hne =>
    have hm : rand vk.2 % 6 < 6 := Nat.mod_lt _ (by norm_num)
    omega

/-- Position 1 has every block one-hot. -/
lemma row1_blockOne (rand : ℕ → ℕ) (init : ℕ → ℤ) (b : ℕ) (hb : b < 9) :
    blockOne (row1 rand init).1 b := by
  rw [row1]
  refine foldl_blockOne (initBlock rand)
      (fun b2 v => ∀ i, 1 ≤ i → i ≤ 6 → v (b2 * 6 + i) = 0)
      (initBlock_loc rand)
      (fun b2 v w hc hPv i hi1 hi2 => (hc i hi1 hi2).trans (hPv i hi1 hi2))
      ?hone (List.range 9) ?hpw (zeroRange init 1 54, 0) ?hinit b (List.mem_range.mpr hb)
  case hone =>
    intro vk b2 hPv
    rw [initBlock_fst]
    have hm : rand vk.2 % 6 < 6 := Nat.mod_lt _ (by norm_num)
    refine ⟨1 + rand vk.2 % 6, by omega, by omega, ?_⟩
    intro i hi1 hi2
    rw [upd_apply]
    by_cases hiu : i = 1 + rand vk.2 % 6
    · rw [if_pos (by omega), if_pos hiu]
    · rw [if_neg (by omega), if_neg hiu]
      exact hPv i hi1 hi2
  case hpw => exact (List.pairwise_lt_range 9).imp Nat.ne_of_lt
  case hinit =>
    intro b2 hb2 i hi1 hi2
    have hb9 : b2 < 9 := List.mem_range.mp hb2
    show zeroRange init 1 54 (b2 * 6 + i) = 0
    rw [zeroRange_apply, if_pos (by omega)]

lemma nextBlock_fst_pos (P : ℚ) (rand : ℕ → ℕ) (prev v : ℕ → ℤ) (k b : ℕ)
    (h : ((rand k % 100 : ℕ) : ℚ) > P * 100) :
    (nextBlock P rand prev (v, k) b).1
      = upd (zeroRange v (b * 6 + 1) 6) (b * 6 + (1 + rand (k + 1) % 6)) 1 := by
  simp only [nextBlock]
  rw [if_pos h]

lemma nextBlock_fst_neg (P : ℚ) (rand : ℕ → ℕ) (prev v : ℕ → ℤ) (k b : ℕ)
    (h : ¬ ((rand k % 100 : ℕ) : ℚ) > P * 100) :
    (nextBlock P rand prev (v, k) b).1 = copyRange prev v (b * 6 + 1) 6 := by
  simp only [nextBlock]
  rw [if_neg h]

lemma nextBlock_loc (P : ℚ) (rand : ℕ → ℕ) (prev : ℕ → ℤ) :
    ∀ (vk : (ℕ → ℤ) × ℕ) (b j : ℕ), (j < b * 6 + 1 ∨ b * 6 + 6 < j) →
      (nextBlock P rand prev vk b).1 j = vk.1 j := by
  intro vk b j hj
  by_cases h : ((rand vk.2 % 100 : ℕ) : ℚ) > P * 100
  · rw [nextBlock_fst_pos P rand prev vk.1 vk.2 b h, upd_apply, if_neg ?hne,
      zeroRange_apply, if_neg (by omega)]
    case hne =>
      have hm : rand (vk.2 + 1) % 6 < 6 := Nat.mod_lt _ (by norm_num)
      omega
  · rw [nextBlock_fst_neg P rand prev vk.1 vk.2 b h, copyRange_apply, if_neg (by omega)]

lemma nextBlock_blockOne (P : ℚ) (rand : ℕ → ℕ) (prev : ℕ → ℤ)
    (hprev : ∀ b, b < 9 → blockOne prev b) :
    ∀ (vk : (ℕ → ℤ) × ℕ) (b : ℕ), b < 9 → blockOne (nextBlock P rand prev vk b).1 b := by
  intro vk b hb
  by_cases h : ((rand vk.2 % 100 : ℕ) : ℚ) > P * 100
  · rw [nextBlock_fst_pos P rand prev vk.1 vk.2 b h]
    have hm : rand (vk.2 + 1) % 6 < 6 := Nat.mod_lt _ (by norm_num)
    refine ⟨1 + rand (vk.2 + 1) % 6, by omega, by omega, ?_⟩
    intro i hi1 hi2
    rw [upd_apply]
    by_cases hiu : i = 1 + rand (vk.2 + 1) % 6
    · rw [if_pos (by omega), if_pos hiu]
    · rw [if_neg (by omega), zeroRange_apply, if_pos (by omega), if_neg hiu]
  · rw [nextBlock_fst_neg P rand prev vk.1 vk.2 b h]
    refine blockOne_congr ?_ (hprev b hb)
    intro i hi1 hi2
    rw [copyRange_apply, if_pos (by omega)]

/-- A later row inherits one-hot blocks from its predecessor. -/
lemma nextRow_blockOne (P : ℚ) (rand : ℕ → ℕ) (prevR : (ℕ → ℤ) × ℕ) (init : ℕ → ℤ)
    (hprev : ∀ b, b < 9 → blockOne prevR.1 b) (b : ℕ) (hb : b < 9) :
    blockOne (nextRow P rand prevR init).1 b := by
  rw [nextRow]
  exact foldl_blockOne (nextBlock P rand prevR.1) (fun b2 _ => b2 < 9)
    (nextBlock_loc P rand prevR.1)
    (fun _ _ _ _ h => h)
    (fun vk b2 hb2 => nextBlock_blockOne P rand prevR.1 hprev vk b2 hb2)
    (List.range 9) ((List.pairwise_lt_range 9).imp Nat.ne_of_lt) (init, prevR.2)
    (fun b2 hb2 => List.mem_range.mp hb2) b (List.mem_range.mpr hb)

/-- Every generated position row has every block one-hot. -/
lemma positionVector_blockOne (P : ℚ) (rand : ℕ → ℕ) (initRow : ℕ → ℕ → ℤ) :
    ∀ p, 1 ≤ p → ∀ b, b < 9 → blockOne (positionVector P rand initRow p) b := by
  intro p
  induction p with
  | zero => omega
  | succ n ih =>
    intro _ b hb
    cases n with
    | zero => exact row1_blockOne rand (initRow 1) b hb
    | succ m =>
      exact nextRow_blockOne P rand (rowState P rand initRow (m + 1)) (initRow (m + 2))
        (fun b2 hb2 => ih (by omega) b2 hb2) b hb

/-- C9: every position `1..maxPosition` of the generated position vectors has
exactly one unit set to 1 and the rest 0 in each of the 9 six-unit blocks;
and for a later position, a block processed with counter `k` is entirely
resampled to the fresh one-hot pattern when the decision draw satisfies
`rand(k) % 100 > P*100`, and copied verbatim from the previous row
otherwise. -/
theorem position_blocks_one_hot (P : ℚ) (rand : ℕ → ℕ) (initRow : ℕ → ℕ → ℤ)
    (prev v : ℕ → ℤ) (k p b i : ℕ)
    (hp1 : 1 ≤ p) (hp2 : p ≤ maxPosition) (hb : b < nbUnitBlocks)
    (hi1 : 1 ≤ i) (hi2 : i ≤ sizeOfPositionBlocks) :
    blockOne (positionVector P rand initRow p) b ∧
      (((rand k % 100 : ℕ) : ℚ) > P * 100 →
        (nextBlock P rand prev (v, k) b).1 (b * 6 + i)
          = if i = 1 + rand (k + 1) % 6 then 1 else 0) ∧
      (¬ ((rand k % 100 : ℕ) : ℚ) > P * 100 →
        (nextBlock P rand prev (v, k) b).1 (b * 6 + i) = prev (b * 6 + i)) := by
  have hb9 : b < 9 := hb
  have hi6 : i ≤ 6 := hi2
  refine ⟨positionVector_blockOne P rand initRow p hp1 b hb9, ?_, ?_⟩
  · intro h
    rw [nextBlock_fst_pos P rand prev v k b h, upd_apply]
    by_cases hiu : i = 1 + rand (k + 1) % 6
    · rw [if_pos (by omega), if_pos hiu]
    · rw [if_neg (by omega), zeroRange_apply, if_pos (by omega), if_neg hiu]
  · intro h
    rw [nextBlock_fst_neg P rand prev v k b h, copyRange_apply, if_pos (by omega)]

/-- C9 witness: the all-zero random stream at position 1, block 0, unit 1. -/
theorem position_blocks_one_hot_witness :
    ((1 : ℕ) ≤ 1 ∧ (1 : ℕ) ≤ maxPosition ∧ (0 : ℕ) < nbUnitBlocks ∧
        (1 : ℕ) ≤ 1 ∧ (1 : ℕ) ≤ sizeOfPositionBlocks) ∧
      (blockOne (positionVector (3 / 10) (fun _ => 0) (fun _ _ => 0) 1) 0 ∧
        (((((fun _ => 0) 0 % 100 : ℕ)) : ℚ) > (3 / 10) * 100 →
          (nextBlock (3 / 10) (fun _ => 0) (fun _ => 0) (fun _ => 0, 0) 0).1 (0 * 6 + 1)
            = if 1 = 1 + (fun _ => 0) (0 + 1) % 6 then 1 else 0) ∧
        (¬ ((((fun _ => 0) 0 % 100 : ℕ)) : ℚ) > (3 / 10) * 100 →
          (nextBlock (3 / 10) (fun _ => 0) (fun _ => 0) (fun _ => 0, 0) 0).1 (0 * 6 + 1)
            = (fun _ => (0 : ℤ)) (0 * 6 + 1))) :=
  ⟨⟨le_refl 1, by decide, by decide, le_refl 1, by decide⟩,
   position_blocks_one_hot (3 / 10) (fun _ => 0) (fun _ _ => 0) (fun _ => 0) (fun _ => 0)
     0 1 0 1 (le_refl 1) (by decide) (by decide) (le_refl 1) (by decide)⟩

end TBRS
